import Mathlib

/-!
# Verification of Elemental's blocked panel algorithms and distribution layer

This file shallowly embeds the parts of the Elemental distributed
linear-algebra library that the specification talks about:

* the blocked panel schedule used by every panel routine
  (`src/blas_like/level3/Trr2k/NNTT.hpp` and the `Repartition` loops);
* the blocked left-lower-normal triangular solve
  (`src/blas/level3/Trsm/TrsmLLN.cpp`) together with a textbook
  sequential forward-substitution reference, over exact rationals;
* the up-front conformance checks of `TrsmLLN` and `TrmmRLT`;
* the tridiagonalization loop structure (`src/lapack/Tridiag/TridiagL.cpp`);
* the `TwoNormEstimate` power-iteration loop
  (`elem::TwoNormEstimate`, do/while with a convergence test);
* the cyclic-distribution data model and the `[MC,MR] -> [*,VR] ->
  [*,MR] -> [MC,MR]` redistribution chain;
* the distributed two-norm `blas::Nrm2` (`src/blas/level1/Nrm2/Nrm2.cpp`);
* the `DistMatrix[*,MC]` copy constructor.

Machine integers are modelled by `Nat` (all the index arithmetic in the
source is on nonnegative, small `int`s), scalars by `ℚ` where the claim is
about exact arithmetic and by `ℝ` where a square root is semantically
essential.
-/

namespace Elemental

/-! ## Block schedule of a panel sweep

Embeds the loop `for( Int k=0; k<r; k+=bsize ) { const Int nb = Min(bsize,r-k); ... }`
of `El::trr2k::Trr2kNNTT` (src/blas_like/level3/Trr2k/NNTT.hpp).  Each
iteration is recorded as the pair `(k, nb)` of the block's starting offset
and its size. -/

/-- The list of `(offset, size)` blocks produced by the panel-sweep loop,
starting from offset `k`.  Mirrors `for( ; k<r; k+=bsize ) nb = Min(bsize,r-k)`. -/
def blockScheduleFrom (bsize r : ℕ) (k : ℕ) : List (ℕ × ℕ) :=
  if h : 0 < bsize ∧ k < r then
    (k, min bsize (r - k)) :: blockScheduleFrom bsize r (k + bsize)
  else
    []
termination_by r - k
decreasing_by omega

/-- The full panel schedule for extent `r` with block size `bsize`. -/
def blockSchedule (bsize r : ℕ) : List (ℕ × ℕ) :=
  blockScheduleFrom bsize r 0

/-- The contiguous index range `[k, k+nb)` covered by one block. -/
def blockRange (p : ℕ × ℕ) : List ℕ :=
  List.range' p.1 p.2

theorem blockScheduleFrom_eq (bsize r k : ℕ) :
    blockScheduleFrom bsize r k =
      if 0 < bsize ∧ k < r then
        (k, min bsize (r - k)) :: blockScheduleFrom bsize r (k + bsize)
      else [] := by
  rw [blockScheduleFrom]
  split <;> simp_all

theorem blockScheduleFrom_mem (bsize r k : ℕ)
    (p : ℕ × ℕ) (hp : p ∈ blockScheduleFrom bsize r k) :
    k ≤ p.1 ∧ p.1 < r ∧ p.2 = min bsize (r - p.1) := by
  induction k using blockScheduleFrom.induct bsize r with
  | case1 k h ih =>
    rw [blockScheduleFrom_eq, if_pos h] at hp
    rcases List.mem_cons.mp hp with h1 | h1
    · subst h1; exact ⟨le_refl _, h.2, rfl⟩
    · have := ih h1
      omega
  | case2 k h =>
    rw [blockScheduleFrom_eq, if_neg h] at hp
    simp at hp

theorem blockScheduleFrom_cover (bsize r : ℕ) (hb : 0 < bsize) (k : ℕ) :
    (blockScheduleFrom bsize r k).flatMap blockRange = List.range' k (r - k) := by
  induction k using blockScheduleFrom.induct bsize r with
  | case1 k h ih =>
    rw [blockScheduleFrom_eq, if_pos h]
    simp only [List.flatMap_cons, ih, blockRange]
    by_cases hle : bsize ≤ r - k
    · have h1 : min bsize (r - k) = bsize := min_eq_left hle
      have h2 : r - (k + bsize) = r - k - bsize := by omega
      rw [h1, h2, List.range'_append_1]
      congr 1
      omega
    · have h1 : min bsize (r - k) = r - k := min_eq_right (by omega)
      have h2 : r - (k + bsize) = 0 := by omega
      rw [h1, h2]
      simp
  | case2 k h =>
    rw [blockScheduleFrom_eq, if_neg h]
    have : r - k = 0 := by omega
    simp [this]

/-- C3: in every panel sweep, each iteration processes a block of size
exactly `min(blockSize, remainingExtent)` carved from the advancing edge,
the blocks partition the index range into disjoint contiguous sub-ranges
(their ranges concatenate, in order, to exactly `[0, r)`), and the final
partial block (when `remainingExtent < blockSize`) has size equal to the
remainder, never padded. -/
theorem trr2k_block_schedule_spec (bsize r : ℕ) (hb : 0 < bsize) :
    (∀ p ∈ blockSchedule bsize r, p.2 = min bsize (r - p.1)) ∧
    (blockSchedule bsize r).flatMap blockRange = List.range r ∧
    (∀ p ∈ blockSchedule bsize r, r - p.1 < bsize → p.2 = r - p.1) := by
  refine ⟨fun p hp => (blockScheduleFrom_mem bsize r 0 p hp).2.2, ?_, ?_⟩
  · rw [blockSchedule, blockScheduleFrom_cover bsize r hb 0, List.range_eq_range',
      Nat.sub_zero]
  · intro p hp hrem
    have h1 := (blockScheduleFrom_mem bsize r 0 p hp).2.2
    omega

/-- Witness for `trr2k_block_schedule_spec`: block size 2, extent 5. -/
theorem trr2k_block_schedule_spec_witness :
    (∀ p ∈ blockSchedule 2 5, p.2 = min 2 (5 - p.1)) ∧
    (blockSchedule 2 5).flatMap blockRange = List.range 5 ∧
    (∀ p ∈ blockSchedule 2 5, 5 - p.1 < 2 → p.2 = 5 - p.1) :=
  trr2k_block_schedule_spec 2 5 (by decide)

/-! ## The `TwoNormEstimate` power-iteration loop

Embeds `elem::TwoNormEstimate` (the `Matrix<F>` overload; the `DistMatrix`
overload is textually identical):

```
Int numIts=0;
Real estimate=0, lastEst;
do
{
    lastEst = estimate;
    ... Gemv / FrobeniusNorm / Gaussian ...
    estimate = FrobeniusNorm( y );
} while( ++numIts < maxIts && Abs(estimate-lastEst) > tol*Max(m,n) );

if( Abs(estimate-lastEst) > tol*Max(m,n) )
    RuntimeError("Two-norm estimate did not converge in time");
return estimate;
```

The numerical body of each iteration (two `Gemv`s, `FrobeniusNorm`s, and
the `Gaussian` random redraws) is a black-box external kernel whose output
does not depend on the loop control, only on the evolving vector state; it
is therefore abstracted as an oracle `ests : ℕ → ℚ` giving the `estimate`
value computed by iteration number `t` (0-based).  The loop control and the
error decision — the subject of the claims — are embedded exactly. -/

/-- The do/while loop of `TwoNormEstimate`, entered with iteration counter
`numIts` and current `estimate`.  Returns `(numIts, lastEst, estimate)`
as they stand when the loop exits. -/
def twoNormLoopAux (ests : ℕ → ℚ) (thresh : ℚ) (maxIts : ℕ)
    (numIts : ℕ) (estimate : ℚ) : ℕ × ℚ × ℚ :=
  if h : numIts + 1 < maxIts ∧ |ests numIts - estimate| > thresh then
    twoNormLoopAux ests thresh maxIts (numIts + 1) (ests numIts)
  else
    (numIts + 1, estimate, ests numIts)
termination_by maxIts - numIts
decreasing_by omega

/-- The loop of `TwoNormEstimate` as entered from the top of the routine:
`numIts = 0`, `estimate = 0`. -/
def twoNormLoop (ests : ℕ → ℚ) (thresh : ℚ) (maxIts : ℕ) : ℕ × ℚ × ℚ :=
  twoNormLoopAux ests thresh maxIts 0 0

/-- `elem::TwoNormEstimate`: runs the power-iteration loop and raises the
runtime error exactly when the final successive-estimate gap still exceeds
`tol * Max(m,n)`; otherwise returns the final estimate. -/
def TwoNormEstimate (ests : ℕ → ℚ) (m n : ℕ) (tol : ℚ) (maxIts : ℕ) :
    Except String ℚ :=
  let out := twoNormLoop ests (tol * (max m n : ℕ)) maxIts
  if |out.2.2 - out.2.1| > tol * (max m n : ℕ) then
    .error "Two-norm estimate did not converge in time"
  else
    .ok out.2.2

theorem twoNormLoopAux_count_le (ests : ℕ → ℚ) (thresh : ℚ) (maxIts : ℕ) :
    ∀ numIts estimate, numIts < maxIts →
      (twoNormLoopAux ests thresh maxIts numIts estimate).1 ≤ maxIts := by
  intro numIts estimate h
  induction numIts, estimate using twoNormLoopAux.induct ests thresh maxIts with
  | case1 numIts estimate hcond ih =>
    rw [twoNormLoopAux.eq_def, dif_pos hcond]
    exact ih hcond.1
  | case2 numIts estimate hcond =>
    rw [twoNormLoopAux.eq_def, dif_neg hcond]
    omega

theorem twoNormLoopAux_exit (ests : ℕ → ℚ) (thresh : ℚ) (maxIts : ℕ) :
    ∀ numIts estimate,
      |(twoNormLoopAux ests thresh maxIts numIts estimate).2.2 -
        (twoNormLoopAux ests thresh maxIts numIts estimate).2.1| > thresh →
      maxIts ≤ (twoNormLoopAux ests thresh maxIts numIts estimate).1 := by
  intro numIts estimate
  induction numIts, estimate using twoNormLoopAux.induct ests thresh maxIts with
  | case1 numIts estimate hcond ih =>
    intro hgap
    rw [twoNormLoopAux, dif_pos hcond] at hgap ⊢
    exact ih hgap
  | case2 numIts estimate hcond =>
    intro hgap
    rw [twoNormLoopAux, dif_neg hcond] at hgap
    simp only at hgap
    rw [twoNormLoopAux, dif_neg hcond]
    rcases not_and_or.mp hcond with h1 | h1
    · omega
    · exact absurd hgap h1

/-- C7: for every estimate oracle (input matrix), tolerance `tol`, and bound
`maxIts ≥ 1`, the power-iteration loop of `TwoNormEstimate` executes at most
`maxIts` iterations before exiting (the exit value of `numIts` is at most
`maxIts`), so the routine always terminates, either returning an estimate or
raising the non-convergence error. -/
theorem twoNormEstimate_at_most_maxIts (ests : ℕ → ℚ) (m n : ℕ) (tol : ℚ)
    (maxIts : ℕ) (hmax : 1 ≤ maxIts) :
    (twoNormLoop ests (tol * (max m n : ℕ)) maxIts).1 ≤ maxIts ∧
    ((∃ q, TwoNormEstimate ests m n tol maxIts = .ok q) ∨
      TwoNormEstimate ests m n tol maxIts =
        .error "Two-norm estimate did not converge in time") := by
  constructor
  · exact twoNormLoopAux_count_le ests (tol * (max m n : ℕ)) maxIts 0 0 hmax
  · rw [TwoNormEstimate]
    split
    · right; rfl
    · left; exact ⟨_, rfl⟩

/-- Witness for `twoNormEstimate_at_most_maxIts`: the constant-zero oracle on
a 1×1 matrix with `tol = 1`, `maxIts = 1`. -/
theorem twoNormEstimate_at_most_maxIts_witness :
    1 ≤ 1 ∧
    ((twoNormLoop (fun _ => 0) ((1 : ℚ) * (max 1 1 : ℕ)) 1).1 ≤ 1 ∧
      ((∃ q, TwoNormEstimate (fun _ => 0) 1 1 1 1 = .ok q) ∨
        TwoNormEstimate (fun _ => 0) 1 1 1 1 =
          .error "Two-norm estimate did not converge in time")) :=
  ⟨le_refl 1, twoNormEstimate_at_most_maxIts (fun _ => 0) 1 1 1 1 (le_refl 1)⟩

/-- C6: `TwoNormEstimate(A, tol, maxIts)` raises the runtime error exactly
when its iteration ends with the absolute difference between the last two
successive estimates exceeding `tol * max(height, width)`; otherwise it
returns the final estimate.  Moreover the error can only occur after the
loop has exhausted all `maxIts` iterations. -/
theorem twoNormEstimate_error_iff (ests : ℕ → ℚ) (m n : ℕ) (tol : ℚ)
    (maxIts : ℕ) :
    (TwoNormEstimate ests m n tol maxIts =
        .error "Two-norm estimate did not converge in time" ↔
      |(twoNormLoop ests (tol * (max m n : ℕ)) maxIts).2.2 -
          (twoNormLoop ests (tol * (max m n : ℕ)) maxIts).2.1| >
        tol * (max m n : ℕ)) ∧
    (¬ (|(twoNormLoop ests (tol * (max m n : ℕ)) maxIts).2.2 -
          (twoNormLoop ests (tol * (max m n : ℕ)) maxIts).2.1| >
        tol * (max m n : ℕ)) →
      TwoNormEstimate ests m n tol maxIts =
        .ok (twoNormLoop ests (tol * (max m n : ℕ)) maxIts).2.2) ∧
    (TwoNormEstimate ests m n tol maxIts =
        .error "Two-norm estimate did not converge in time" →
      maxIts ≤ (twoNormLoop ests (tol * (max m n : ℕ)) maxIts).1) := by
  refine ⟨?_, ?_, ?_⟩
  · rw [TwoNormEstimate]
    split
    · simp_all
    · simp_all
  · intro hng
    rw [TwoNormEstimate, if_neg hng]
  · intro herr
    have hgap : |(twoNormLoop ests (tol * (max m n : ℕ)) maxIts).2.2 -
        (twoNormLoop ests (tol * (max m n : ℕ)) maxIts).2.1| >
        tol * (max m n : ℕ) := by
      by_contra hng
      rw [TwoNormEstimate, if_neg hng] at herr
      exact Except.noConfusion herr
    exact twoNormLoopAux_exit ests (tol * (max m n : ℕ)) maxIts 0 0 hgap

/-! ## Blocked left-lower-normal triangular solve (`TrsmLLN`)

Embeds `elemental::blas::internal::TrsmLLN`
(src/blas/level3/Trsm/TrsmLLN.cpp) over exact rationals.  A global matrix
is a function `ℕ → ℕ → ℚ` together with explicit extents; partitioning is
index arithmetic on the same function.  The redistributions
(`X1[*,VR] <- X1[MC,MR]` etc.) move data without changing it, so at the
level of global matrix content each panel step is: solve the diagonal
block, then a rank-`b` update of the trailing rows.  The sequential local
kernel `blas::internal::LocalTrsm` is the excluded local-kernel
collaborator (assumed exact); it is modelled by the same textbook forward
substitution `refY` that serves as the trusted sequential reference. -/

/-- The `Diagonal` option: `tril(L)` vs `trilu(L)` (implicit unit diagonal). -/
inductive Diagonal where
  | NonUnit
  | Unit
deriving DecidableEq

/-- The diagonal value the solve actually uses: the stored `L i i` for
`NonUnit`, the implicit `1` for `Unit`. -/
def effDiag (d : Diagonal) (L : ℕ → ℕ → ℚ) (i : ℕ) : ℚ :=
  match d with
  | .NonUnit => L i i
  | .Unit => 1

/-- The multiplier applied when eliminating row `i`'s diagonal:
`(L i i)⁻¹` for `NonUnit`, `1` for `Unit`. -/
def dinv (d : Diagonal) (L : ℕ → ℕ → ℚ) (i : ℕ) : ℚ :=
  match d with
  | .NonUnit => (L i i)⁻¹
  | .Unit => 1

/-- Textbook sequential forward substitution (the trusted reference
triangular solve): row `i` of the solution of `tril(L) · Y = B`
(or `trilu(L) · Y = B`) is
`Y i j = (B i j − Σ_{l<i} L i l · Y l j) / L i i`. -/
def refY (d : Diagonal) (L B : ℕ → ℕ → ℚ) (i : ℕ) : ℕ → ℚ :=
  fun j =>
    (B i j - ∑ l ∈ (Finset.range i).attach, L i l.1 * refY d L B l.1 j) *
      dinv d L i
termination_by i
decreasing_by exact Finset.mem_range.mp l.2

theorem refY_eq (d : Diagonal) (L B : ℕ → ℕ → ℚ) (i j : ℕ) :
    refY d L B i j =
      (B i j - ∑ l ∈ Finset.range i, L i l * refY d L B l j) * dinv d L i := by
  rw [refY]
  rw [Finset.sum_attach (Finset.range i) (fun l => L i l * refY d L B l j)]

/-- Splitting a sum over `range (i + t)` at `i`. -/
theorem sum_range_split (g : ℕ → ℚ) (i t : ℕ) :
    ∑ l ∈ Finset.range (i + t), g l =
      (∑ l ∈ Finset.range i, g l) + ∑ s ∈ Finset.range t, g (i + s) := by
  induction t with
  | zero => simp
  | succ t ih =>
    rw [Nat.add_succ, Finset.sum_range_succ, ih, Finset.sum_range_succ]
    ring

/-- `refY` only depends on the right-hand side at rows `≤ i` of the same
column. -/
theorem refY_congr (d : Diagonal) (L B B' : ℕ → ℕ → ℚ) (i j : ℕ)
    (h : ∀ l ≤ i, B l j = B' l j) :
    refY d L B i j = refY d L B' i j := by
  induction i using Nat.strong_induction_on with
  | _ i ih =>
    rw [refY_eq, refY_eq, h i (le_refl i)]
    congr 2
    apply Finset.sum_congr rfl
    intro l hl
    have hli : l < i := Finset.mem_range.mp hl
    rw [ih l hli (fun l' hl' => h l' (le_trans hl' (Nat.le_of_lt hli)))]

/-- Entry `(i, j)` of `tril(L) · Y` (resp. `trilu(L) · Y`), for a solution
`Y` whose rows above `i` are already fixed. -/
def trilMulEntry (d : Diagonal) (L Y : ℕ → ℕ → ℚ) (i j : ℕ) : ℚ :=
  effDiag d L i * Y i j + ∑ l ∈ Finset.range i, L i l * Y l j

/-- The reference solution satisfies the defining triangular system
whenever the (effective) diagonal entry is nonzero. -/
theorem refY_solves (d : Diagonal) (L B : ℕ → ℕ → ℚ) (i j : ℕ)
    (hd : effDiag d L i ≠ 0) :
    trilMulEntry d L (fun r c => refY d L B r c) i j = B i j := by
  rw [trilMulEntry]
  rw [refY_eq]
  cases d with
  | NonUnit =>
    rw [effDiag, dinv] at *
    field_simp
  | Unit =>
    rw [effDiag, dinv] at *
    ring

/-- The diagonal block of `L` starting at `(i, i)`. -/
def shiftMat (i : ℕ) (M : ℕ → ℕ → ℚ) : ℕ → ℕ → ℚ :=
  fun a b => M (i + a) (i + b)

/-- The rows of the current right-hand side starting at row `i`. -/
def shiftRows (i : ℕ) (R : ℕ → ℕ → ℚ) : ℕ → ℕ → ℚ :=
  fun a j => R (i + a) j

theorem dinv_shift (d : Diagonal) (L : ℕ → ℕ → ℚ) (i t : ℕ) :
    dinv d (shiftMat i L) t = dinv d L (i + t) := by
  cases d <;> rfl

/-- One panel step of `TrsmLLN` at offset `i` with block size `b`:
`X1[i, i+b) := LocalTrsm(L11, X1)` (the sequential kernel on the diagonal
block), then `X2[i+b, ∞) -= L21 · X1` (the `LocalGemm` trailing update).
Rows above `i` are untouched. -/
def trsmStep (d : Diagonal) (L : ℕ → ℕ → ℚ) (i b : ℕ) (R : ℕ → ℕ → ℚ) :
    ℕ → ℕ → ℚ :=
  fun r j =>
    if r < i then R r j
    else if r < i + b then refY d (shiftMat i L) (shiftRows i R) (r - i) j
    else R r j -
      ∑ t ∈ Finset.range b, L r (i + t) * refY d (shiftMat i L) (shiftRows i R) t j

/-- The panel sweep `while( XB.Height() > 0 )` of `TrsmLLN`: repeatedly
carve a panel of size `min nb (n - i)` and apply `trsmStep`. -/
def trsmLoop (d : Diagonal) (L : ℕ → ℕ → ℚ) (nb n : ℕ) (i : ℕ)
    (R : ℕ → ℕ → ℚ) : ℕ → ℕ → ℚ :=
  if h : 0 < nb ∧ i < n then
    trsmLoop d L nb n (i + min nb (n - i)) (trsmStep d L i (min nb (n - i)) R)
  else R
termination_by n - i
decreasing_by omega

/-- `blas::Scal( alpha, X )` on an `m × k` matrix: scales exactly the
in-range entries. -/
def scalMat (alpha : ℚ) (m k : ℕ) (X : ℕ → ℕ → ℚ) : ℕ → ℕ → ℚ :=
  fun i j => if i < m ∧ j < k then alpha * X i j else X i j

/-- The algorithmic body of `TrsmLLN` (after the debug checks): scale `X`
by `alpha`, then run the blocked panel sweep over the `n × k` extent of
`X`. -/
def TrsmLLNrun (d : Diagonal) (nb : ℕ) (alpha : ℚ) (L X : ℕ → ℕ → ℚ)
    (n k : ℕ) : ℕ → ℕ → ℚ :=
  trsmLoop d L nb n 0 (scalMat alpha n k X)

/-- The local solve of a diagonal block applied to the partially updated
right-hand side produces exactly the corresponding rows of the global
reference solution. -/
theorem refY_shift (d : Diagonal) (L B : ℕ → ℕ → ℚ) (i : ℕ) (R : ℕ → ℕ → ℚ)
    (hR : ∀ a j, R (i + a) j =
      B (i + a) j - ∑ l ∈ Finset.range i, L (i + a) l * refY d L B l j) :
    ∀ t j, refY d (shiftMat i L) (shiftRows i R) t j = refY d L B (i + t) j := by
  intro t
  induction t using Nat.strong_induction_on with
  | _ t ih =>
    intro j
    rw [refY_eq, refY_eq, dinv_shift]
    congr 1
    have h2 : ∀ s ∈ Finset.range t,
        shiftMat i L t s * refY d (shiftMat i L) (shiftRows i R) s j =
          L (i + t) (i + s) * refY d L B (i + s) j := by
      intro s hs
      rw [ih s (Finset.mem_range.mp hs)]
      rfl
    rw [Finset.sum_congr rfl h2,
      sum_range_split (fun l => L (i + t) l * refY d L B l j) i t]
    have h1 : shiftRows i R t j =
        B (i + t) j - ∑ l ∈ Finset.range i, L (i + t) l * refY d L B l j :=
      hR t j
    rw [h1]
    ring

/-- `trsmStep` preserves the sweep invariant: rows before the boundary hold
the reference solution, rows after it hold the partially updated residual. -/
theorem trsmStep_inv (d : Diagonal) (L B : ℕ → ℕ → ℚ) (i b : ℕ)
    (R : ℕ → ℕ → ℚ)
    (h1 : ∀ r j, r < i → R r j = refY d L B r j)
    (h2 : ∀ r j, i ≤ r → R r j =
      B r j - ∑ l ∈ Finset.range i, L r l * refY d L B l j) :
    (∀ r j, r < i + b → trsmStep d L i b R r j = refY d L B r j) ∧
    (∀ r j, i + b ≤ r → trsmStep d L i b R r j =
      B r j - ∑ l ∈ Finset.range (i + b), L r l * refY d L B l j) := by
  have hshift := refY_shift d L B i R (fun a j => h2 (i + a) j (Nat.le_add_right i a))
  constructor
  · intro r j hr
    rw [trsmStep]
    by_cases hlt : r < i
    · rw [if_pos hlt]
      exact h1 r j hlt
    · rw [if_neg hlt, if_pos hr, hshift (r - i) j]
      congr 1
      omega
  · intro r j hr
    rw [trsmStep, if_neg (by omega), if_neg (by omega)]
    rw [h2 r j (by omega)]
    have h3 : ∀ t ∈ Finset.range b,
        L r (i + t) * refY d (shiftMat i L) (shiftRows i R) t j =
          L r (i + t) * refY d L B (i + t) j := by
      intro t ht
      rw [hshift t j]
    rw [Finset.sum_congr rfl h3,
      sum_range_split (fun l => L r l * refY d L B l j) i b]
    ring

/-- Running the sweep from boundary `i` with the invariant holding finishes
with every row below `n` equal to the reference solution. -/
theorem trsmLoop_inv (d : Diagonal) (L B : ℕ → ℕ → ℚ) (nb n : ℕ)
    (hnb : 0 < nb) :
    ∀ i R,
      (∀ r j, r < i → R r j = refY d L B r j) →
      (∀ r j, i ≤ r → R r j =
        B r j - ∑ l ∈ Finset.range i, L r l * refY d L B l j) →
      ∀ r j, r < n → trsmLoop d L nb n i R r j = refY d L B r j := by
  intro i R
  induction i, R using trsmLoop.induct d L nb n with
  | case1 i R hc ih =>
    intro h1 h2 r j hr
    rw [trsmLoop, dif_pos hc]
    have hstep := trsmStep_inv d L B i (min nb (n - i)) R h1 h2
    exact ih hstep.1 hstep.2 r j hr
  | case2 i R hc =>
    intro h1 h2 r j hr
    rw [trsmLoop, dif_neg hc]
    have hin : n ≤ i := by
      rcases not_and_or.mp hc with hx | hx
      · omega
      · omega
    exact h1 r j (by omega)

/-- C1: for every square lower-triangular `L` (nonzero effective diagonal)
and conforming right-hand side `X`, and every scalar `alpha`, the blocked
`TrsmLLN` overwrites `X` with `alpha * tril(L)⁻¹ X` (resp.
`alpha * trilu(L)⁻¹ X` under the unit-diagonal option): every entry equals
the trusted sequential reference forward substitution applied to
`alpha * X`, for every block size `nb ≥ 1` — including 1, any prime, and
any `nb > n` — and multiplying back by the (effective) triangle recovers
`alpha * X` exactly, in exact arithmetic. -/
theorem trsmLLN_blocked_matches_reference (d : Diagonal) (nb : ℕ)
    (alpha : ℚ) (L X : ℕ → ℕ → ℚ) (n k : ℕ) (hnb : 0 < nb)
    (hdiag : ∀ i, i < n → effDiag d L i ≠ 0) :
    ∀ i, i < n → ∀ j, j < k →
      TrsmLLNrun d nb alpha L X n k i j =
        refY d L (fun r c => alpha * X r c) i j ∧
      trilMulEntry d L (TrsmLLNrun d nb alpha L X n k) i j = alpha * X i j := by
  intro i hi j hj
  have hB2 : ∀ r c, (0 : ℕ) ≤ r → scalMat alpha n k X r c =
      scalMat alpha n k X r c -
        ∑ l ∈ Finset.range 0, L r l * refY d L (scalMat alpha n k X) l c := by
    intro r c _
    simp
  have hmain := trsmLoop_inv d L (scalMat alpha n k X) nb n hnb 0
    (scalMat alpha n k X) (fun r c hr => absurd hr (Nat.not_lt_zero r)) hB2
  have hrows : ∀ l, l < n → TrsmLLNrun d nb alpha L X n k l j =
      refY d L (scalMat alpha n k X) l j := by
    intro l hl
    rw [TrsmLLNrun]
    exact hmain l j hl
  constructor
  · rw [hrows i hi]
    apply refY_congr
    intro l hl
    simp only [scalMat]
    rw [if_pos ⟨by omega, hj⟩]
  · simp only [trilMulEntry]
    rw [hrows i hi]
    have hsum : ∑ l ∈ Finset.range i, L i l * TrsmLLNrun d nb alpha L X n k l j =
        ∑ l ∈ Finset.range i, L i l * refY d L (scalMat alpha n k X) l j := by
      apply Finset.sum_congr rfl
      intro l hl
      rw [hrows l (Nat.lt_trans (Finset.mem_range.mp hl) hi)]
    rw [hsum]
    have hsolve := refY_solves d L (scalMat alpha n k X) i j (hdiag i hi)
    simp only [trilMulEntry] at hsolve
    rw [hsolve]
    simp only [scalMat]
    rw [if_pos ⟨hi, hj⟩]

/-- Witness for `trsmLLN_blocked_matches_reference`: the 2×2 system
`L = [[1,0],[2,3]]` against a single column `X = [[5],[7]]`, `alpha = 1`,
block size 1, non-unit diagonal. -/
theorem trsmLLN_blocked_matches_reference_witness :
    0 < 1 ∧
    (∀ i, i < 2 →
      effDiag Diagonal.NonUnit
        (fun r c => if r = 0 ∧ c = 0 then 1 else if r = 1 ∧ c = 0 then 2
          else if r = 1 ∧ c = 1 then 3 else 0) i ≠ 0) ∧
    (∀ i, i < 2 → ∀ j, j < 1 →
      TrsmLLNrun Diagonal.NonUnit 1 1
          (fun r c => if r = 0 ∧ c = 0 then 1 else if r = 1 ∧ c = 0 then 2
            else if r = 1 ∧ c = 1 then 3 else 0)
          (fun r _ => if r = 0 then 5 else 7) 2 1 i j =
        refY Diagonal.NonUnit
          (fun r c => if r = 0 ∧ c = 0 then 1 else if r = 1 ∧ c = 0 then 2
            else if r = 1 ∧ c = 1 then 3 else 0)
          (fun r c => 1 * (fun r _ => if r = 0 then (5 : ℚ) else 7) r c) i j ∧
      trilMulEntry Diagonal.NonUnit
          (fun r c => if r = 0 ∧ c = 0 then 1 else if r = 1 ∧ c = 0 then 2
            else if r = 1 ∧ c = 1 then 3 else 0)
          (TrsmLLNrun Diagonal.NonUnit 1 1
            (fun r c => if r = 0 ∧ c = 0 then 1 else if r = 1 ∧ c = 0 then 2
              else if r = 1 ∧ c = 1 then 3 else 0)
            (fun r _ => if r = 0 then 5 else 7) 2 1) i j =
        1 * (fun r _ => if r = 0 then (5 : ℚ) else 7) i j) := by
  refine ⟨Nat.one_pos, ?_, ?_⟩
  · intro i hi
    interval_cases i <;> simp [effDiag]
  · exact trsmLLN_blocked_matches_reference Diagonal.NonUnit 1 1 _ _ 2 1
      Nat.one_pos (by intro i hi; interval_cases i <;> simp [effDiag])

/-! ## Up-front conformance checks of `TrsmLLN` and `TrmmRLT`

Embeds the `#ifndef RELEASE` preamble of both routines (the checked build):
each routine first compares the grids, (for `TrmmRLT`) the orientation, and
the operand extents, throwing `std::logic_error` with a message naming the
extents before any view, alignment, communication, or update is performed;
only a conformal call reaches the algorithm body.  A throwing routine is
modelled as `Except String`: the `.error` branch is taken before the
algorithm runs, so the operands are untouched by construction, and the
check sits outside the panel loop, evaluated exactly once. -/

/-- The `Orientation` option of the BLAS-like routines. -/
inductive Orientation where
  | Normal
  | Transpose
  | ConjugateTranspose
deriving DecidableEq

/-- `elemental::blas::internal::TrsmLLN` with its debug-build preamble:
grid check, conformance check (`L` square and `L.Width() == X.Height()`),
then the blocked algorithm. -/
def TrsmLLNchecked (sameGrid : Bool) (d : Diagonal) (nb : ℕ) (alpha : ℚ)
    (Lh Lw Xh Xw : ℕ) (L X : ℕ → ℕ → ℚ) : Except String (ℕ → ℕ → ℚ) :=
  if sameGrid = false then
    .error "L and X must be distributed over the same grid."
  else if Lh ≠ Lw ∨ Lw ≠ Xh then
    .error ("Nonconformal TrsmLLN: \n  L ~ " ++ toString Lh ++ " x " ++
      toString Lw ++ "\n  X ~ " ++ toString Xh ++ " x " ++ toString Xw ++ "\n")
  else
    .ok (TrsmLLNrun d nb alpha L X Xh Xw)

/-- `elemental::blas::internal::TrmmRLT` with its debug-build preamble:
grid check, orientation check, conformance check (`L` square and
`X.Width() == L.Height()`).  The algorithm body is abstracted as `body`
(this claim constrains only the error behaviour). -/
def TrmmRLTchecked (sameGrid : Bool) (orientation : Orientation)
    (Lh Lw Xh Xw : ℕ) (body : (ℕ → ℕ → ℚ) → ℕ → ℕ → ℚ) (X : ℕ → ℕ → ℚ) :
    Except String (ℕ → ℕ → ℚ) :=
  if sameGrid = false then
    .error "L and X must be distributed over the same grid."
  else if orientation = .Normal then
    .error "TrmmRLT expects a (Conjugate)Transpose option."
  else if Lh ≠ Lw ∨ Xw ≠ Lh then
    .error ("Nonconformal TrmmRLT: \n  L ~ " ++ toString Lh ++ " x " ++
      toString Lw ++ "\n  X ~ " ++ toString Xh ++ " x " ++ toString Xw ++ "\n")
  else
    .ok (body X)

/-- C4: for every pair of operands whose dimensions do not conform
(in `TrsmLLN`: `L` not square or `L.Width() != X.Height()`; in `TrmmRLT`,
called with a legal transpose orientation: `L` not square or
`X.Width() != L.Height()`; or grids differing), the routine yields a logic
error — naming the four operand extents when the mismatch is dimensional —
and the algorithm body (hence any communication or modification of the
operands) is reached exactly when no such mismatch exists; the check is the
up-front preamble, outside the panel loop. -/
theorem trsm_trmm_conformance_checks (sameGrid : Bool) (d : Diagonal)
    (orientation : Orientation) (nb : ℕ) (alpha : ℚ) (Lh Lw Xh Xw : ℕ)
    (L X : ℕ → ℕ → ℚ) (body : (ℕ → ℕ → ℚ) → ℕ → ℕ → ℚ)
    (horient : orientation ≠ .Normal) :
    ((∃ e, TrsmLLNchecked sameGrid d nb alpha Lh Lw Xh Xw L X = .error e) ↔
      (sameGrid = false ∨ Lh ≠ Lw ∨ Lw ≠ Xh)) ∧
    (sameGrid = true → (Lh ≠ Lw ∨ Lw ≠ Xh) →
      TrsmLLNchecked sameGrid d nb alpha Lh Lw Xh Xw L X =
        .error ("Nonconformal TrsmLLN: \n  L ~ " ++ toString Lh ++ " x " ++
          toString Lw ++ "\n  X ~ " ++ toString Xh ++ " x " ++
          toString Xw ++ "\n")) ∧
    (¬ (sameGrid = false ∨ Lh ≠ Lw ∨ Lw ≠ Xh) →
      TrsmLLNchecked sameGrid d nb alpha Lh Lw Xh Xw L X =
        .ok (TrsmLLNrun d nb alpha L X Xh Xw)) ∧
    ((∃ e, TrmmRLTchecked sameGrid orientation Lh Lw Xh Xw body X = .error e) ↔
      (sameGrid = false ∨ Lh ≠ Lw ∨ Xw ≠ Lh)) ∧
    (sameGrid = true → (Lh ≠ Lw ∨ Xw ≠ Lh) →
      TrmmRLTchecked sameGrid orientation Lh Lw Xh Xw body X =
        .error ("Nonconformal TrmmRLT: \n  L ~ " ++ toString Lh ++ " x " ++
          toString Lw ++ "\n  X ~ " ++ toString Xh ++ " x " ++
          toString Xw ++ "\n")) ∧
    (¬ (sameGrid = false ∨ Lh ≠ Lw ∨ Xw ≠ Lh) →
      TrmmRLTchecked sameGrid orientation Lh Lw Xh Xw body X = .ok (body X)) := by
  refine ⟨?_, ?_, ?_, ?_, ?_, ?_⟩
  · rw [TrsmLLNchecked]
    rcases sameGrid with _ | _
    · simp
    · by_cases hc : Lh ≠ Lw ∨ Lw ≠ Xh <;> simp [hc]
  · intro hg hc
    rw [TrsmLLNchecked, hg]
    simp [hc]
  · intro hok
    push_neg at hok
    rw [TrsmLLNchecked]
    have : sameGrid = true := by
      rcases sameGrid with _ | _
      · exact absurd rfl hok.1
      · rfl
    rw [this]
    simp only [Bool.true_eq_false, if_false]
    rw [if_neg (by push_neg; exact ⟨hok.2.1, hok.2.2⟩)]
  · rw [TrmmRLTchecked]
    rcases sameGrid with _ | _
    · simp
    · simp only [Bool.true_eq_false, if_false, if_neg horient]
      by_cases hc : Lh ≠ Lw ∨ Xw ≠ Lh <;> simp [hc]
  · intro hg hc
    rw [TrmmRLTchecked, hg]
    simp only [Bool.true_eq_false, if_false, if_neg horient]
    simp [hc]
  · intro hok
    push_neg at hok
    rw [TrmmRLTchecked]
    have : sameGrid = true := by
      rcases sameGrid with _ | _
      · exact absurd rfl hok.1
      · rfl
    rw [this]
    simp only [Bool.true_eq_false, if_false, if_neg horient]
    rw [if_neg (by push_neg; exact ⟨hok.2.1, hok.2.2⟩)]

/-- Witness for `trsm_trmm_conformance_checks`: a 2×3 (non-square) `L`
against a 3×1 `X`, transpose orientation. -/
theorem trsm_trmm_conformance_checks_witness :
    Orientation.Transpose ≠ Orientation.Normal ∧
    ((∃ e, TrsmLLNchecked true Diagonal.NonUnit 1 1 2 3 3 1
        (fun _ _ => 0) (fun _ _ => 0) = .error e) ↔
      ((true : Bool) = false ∨ 2 ≠ 3 ∨ 3 ≠ 3)) :=
  ⟨by decide,
    (trsm_trmm_conformance_checks true Diagonal.NonUnit Orientation.Transpose
      1 1 2 3 3 1 (fun _ _ => 0) (fun _ _ => 0) id (by decide)).1⟩

/-- C8: a height-0 `X` (together with the conforming 0×0 `L`) is legal
input to `TrsmLLN`: the panel-sweep loop executes zero iterations (with the
boundary already at the end, the loop immediately returns its input), the
checked routine succeeds, and `X` comes back entirely unchanged — the call
is a no-op. -/
theorem trsmLLN_empty_noop (d : Diagonal) (nb : ℕ) (alpha : ℚ) (k : ℕ)
    (L X : ℕ → ℕ → ℚ) :
    (∀ R, trsmLoop d L nb 0 0 R = R) ∧
    TrsmLLNchecked true d nb alpha 0 0 0 k L X = .ok X := by
  have hloop : ∀ R, trsmLoop d L nb 0 0 R = R := by
    intro R
    rw [trsmLoop, dif_neg (by omega)]
  refine ⟨hloop, ?_⟩
  rw [TrsmLLNchecked]
  simp only [Bool.true_eq_false, if_false]
  rw [if_neg (by omega)]
  congr 1
  rw [TrsmLLNrun, hloop]
  funext i j
  simp [scalMat]

/-! ## The `TridiagL` loop: panel step vs. final local fallback

Embeds the control structure of `elemental::lapack::internal::TridiagL`
(src/lapack/Tridiag/TridiagL.cpp), real and complex variants, which share
the loop shape

```
while( ATL.Height() < A.Height() ) {
    RepartitionDownDiagonal ...            // A11 is b × b, A22 trails
    if( A22.Height() > 0 ) {
        lapack::internal::PanelTridiagL( ABR, WPan, e1 [, t1] );
        blas::Syr2k / blas::Her2k( Lower, Normal, -1, A21, W21, 1, A22 );
        A11Expanded.SetDiagonal( e1, -1 );
    } else {
        A11_Star_Star = A11;               // copy to fully replicated [*,*]
        lapack::Tridiag( Lower, A11_Star_Star.LocalMatrix() ... );
        A11 = A11_Star_Star;               // copy back
    }
    SlidePartitionDownDiagonal ...
}
```

Each iteration is recorded as an operation describing which branch ran. -/

/-- Whether the scalar type is real or complex; it selects the rank-2k
kernel (`Syr2k` vs `Her2k`) used in the panel branch. -/
inductive ScalarKind where
  | real
  | complex
deriving DecidableEq

/-- The rank-2k update kernel applied to the trailing matrix. -/
inductive UpdateKind where
  | syr2k
  | her2k
deriving DecidableEq

/-- Which rank-2k kernel the source instantiates for each scalar kind:
`blas::Syr2k` in the real `TridiagL`, `blas::Her2k` in the complex one. -/
def rank2kKind (sc : ScalarKind) : UpdateKind :=
  match sc with
  | .real => .syr2k
  | .complex => .her2k

/-- One iteration of the `TridiagL` loop body.
`panelStep b trailing upd` is the `A22.Height() > 0` branch: panel
tridiagonalization of `ABR` (panel width `b`), rank-2k update `upd` of the
trailing `A22` of height `trailing`, and `SetDiagonal`.
`localStep b` is the `else` branch: copy the final `b × b` diagonal block
`A11` into a fully replicated `[*,*]` matrix, run the sequential
`lapack::Tridiag` kernel on its local matrix, and copy it back — with no
panel step and no trailing update. -/
inductive TridiagOp where
  | panelStep (b trailing : ℕ) (upd : UpdateKind)
  | localStep (b : ℕ)
deriving DecidableEq

/-- The branch selection of one `TridiagL` iteration at boundary `i` with
repartition block size `b` on an `n × n` matrix: `A22` has height
`n - (i + b)`. -/
def tridiagLStep (sc : ScalarKind) (n i b : ℕ) : TridiagOp :=
  if 0 < n - (i + b) then .panelStep b (n - (i + b)) (rank2kKind sc)
  else .localStep b

/-- The list of operations performed by `TridiagL`'s loop from boundary `i`;
the repartition carves `min nb (n - i)` diagonal entries per iteration. -/
def tridiagLTrace (sc : ScalarKind) (nb n : ℕ) (i : ℕ) : List TridiagOp :=
  if h : 0 < nb ∧ i < n then
    tridiagLStep sc n i (min nb (n - i)) ::
      tridiagLTrace sc nb n (i + min nb (n - i))
  else []
termination_by n - i
decreasing_by omega

theorem tridiagLTrace_structure (sc : ScalarKind) (nb n : ℕ) (hnb : 0 < nb) :
    ∀ i, i < n →
      ∃ pre b, tridiagLTrace sc nb n i = pre ++ [TridiagOp.localStep b] ∧
        ∀ op ∈ pre, ∃ b' t', 0 < t' ∧
          op = TridiagOp.panelStep b' t' (rank2kKind sc) := by
  intro i
  induction i using tridiagLTrace.induct sc nb n with
  | case1 i hc ih =>
    intro hi
    rw [tridiagLTrace, dif_pos hc]
    by_cases hlast : i + min nb (n - i) = n
    · refine ⟨[], min nb (n - i), ?_, by simp⟩
      have hstep : tridiagLStep sc n i (min nb (n - i)) =
          TridiagOp.localStep (min nb (n - i)) := by
        rw [tridiagLStep, if_neg (by omega)]
      rw [hstep]
      have htail : tridiagLTrace sc nb n (i + min nb (n - i)) = [] := by
        rw [tridiagLTrace, dif_neg (by omega)]
      rw [htail]
      rfl
    · have hlt : i + min nb (n - i) < n := by omega
      obtain ⟨pre, b, htr, hpre⟩ := ih hlt
      have hstep : tridiagLStep sc n i (min nb (n - i)) =
          TridiagOp.panelStep (min nb (n - i)) (n - (i + min nb (n - i)))
            (rank2kKind sc) := by
        rw [tridiagLStep, if_pos (by omega)]
      refine ⟨tridiagLStep sc n i (min nb (n - i)) :: pre, b, by rw [htr]; rfl, ?_⟩
      intro op hop
      rcases List.mem_cons.mp hop with h1 | h1
      · exact ⟨min nb (n - i), n - (i + min nb (n - i)), by omega, by rw [h1, hstep]⟩
      · exact hpre op h1
  | case2 i hc =>
    intro hi
    exact absurd ⟨hnb, hi⟩ hc

/-- C5: in `TridiagL`, whenever after repartitioning the trailing block
`A22` is empty (height 0, i.e. the block reaches the matrix edge), the
iteration is the local fallback — copy the final diagonal block to `[*,*]`,
run the sequential `Tridiag` kernel, copy back — with no panel step and no
trailing update; whenever `A22` is non-empty, the iteration is a panel
tridiagonalization of `ABR` followed by a rank-2k update of `A22`, `Syr2k`
for real scalars and `Her2k` for complex scalars.  Consequently the trace
of a full run is a sequence of panel steps closed by exactly one local
fallback. -/
theorem tridiagL_last_block_fallback (sc : ScalarKind) (nb n : ℕ)
    (hnb : 0 < nb) (hn : 0 < n) :
    (∀ i b, i + b ≤ n →
      (tridiagLStep sc n i b = TridiagOp.localStep b ↔ i + b = n) ∧
      (i + b < n → tridiagLStep sc n i b =
        TridiagOp.panelStep b (n - (i + b)) (rank2kKind sc))) ∧
    rank2kKind .real = .syr2k ∧ rank2kKind .complex = .her2k ∧
    (∃ pre b, tridiagLTrace sc nb n 0 = pre ++ [TridiagOp.localStep b] ∧
      ∀ op ∈ pre, ∃ b' t', 0 < t' ∧
        op = TridiagOp.panelStep b' t' (rank2kKind sc)) := by
  refine ⟨?_, rfl, rfl, tridiagLTrace_structure sc nb n hnb 0 hn⟩
  intro i b hib
  constructor
  · constructor
    · intro hl
      by_contra hne
      rw [tridiagLStep, if_pos (by omega)] at hl
      exact TridiagOp.noConfusion hl
    · intro he
      rw [tridiagLStep, if_neg (by omega)]
  · intro hlt
    rw [tridiagLStep, if_pos (by omega)]

/-- Witness for `tridiagL_last_block_fallback`: real scalars, block size 2,
a 5×5 matrix. -/
theorem tridiagL_last_block_fallback_witness :
    (0 < 2 ∧ 0 < 5) ∧
    (∃ pre b,
      tridiagLTrace ScalarKind.real 2 5 0 = pre ++ [TridiagOp.localStep b] ∧
      ∀ op ∈ pre, ∃ b' t', 0 < t' ∧
        op = TridiagOp.panelStep b' t' (rank2kKind ScalarKind.real)) :=
  ⟨⟨by decide, by decide⟩,
    (tridiagL_last_block_fallback ScalarKind.real 2 5 (by decide)
      (by decide)).2.2.2⟩

/-! ## The `DistMatrix[*,MC]` copy constructor

Embeds `DistMatrix<R,Star,MC>::DistMatrix( const DistMatrix& A )` (and the
textually identical `complex<R>` variant):

```
if( &A != this )
    *this = A;
else
    throw std::logic_error( "Attempted to construct a [* ,MC] with itself." );
```

Object identity (`&A` vs `this`) is modelled by abstract addresses; the
redistributing `operator=` the constructor delegates to is the abstract
`assign` collaborator. -/

/-- The body of the `[*,MC]` copy constructor: compares the argument's
address with the object under construction and either delegates to the
same-distribution `operator=` or throws. -/
def starMCCopyCtor {α β : Type} (selfAddr srcAddr : ℕ) (src : α)
    (assign : α → β) : Except String β :=
  if srcAddr ≠ selfAddr then .ok (assign src)
  else .error "Attempted to construct a [* ,MC] with itself."

/-- C10: the copy constructor of `DistMatrix[*,MC]` throws a logic error
exactly when its argument is the object being constructed
(self-construction), and for every distinct source it copies the source by
delegating to the corresponding redistributing assignment operator. -/
theorem starMC_copy_ctor_self_check {α β : Type} (selfAddr srcAddr : ℕ)
    (src : α) (assign : α → β) :
    (srcAddr = selfAddr →
      starMCCopyCtor selfAddr srcAddr src assign =
        .error "Attempted to construct a [* ,MC] with itself.") ∧
    (srcAddr ≠ selfAddr →
      starMCCopyCtor selfAddr srcAddr src assign = .ok (assign src)) := by
  constructor
  · intro he
    rw [starMCCopyCtor, if_neg (by omega)]
  · intro hne
    rw [starMCCopyCtor, if_pos hne]

/-- Witness for `starMC_copy_ctor_self_check`: address 7 constructed from
itself throws; address 7 constructed from address 3 copies. -/
theorem starMC_copy_ctor_self_check_witness :
    ((7 : ℕ) = 7 →
      starMCCopyCtor 7 7 (3 : ℚ) (fun q => q + 1) =
        .error "Attempted to construct a [* ,MC] with itself.") ∧
    ((3 : ℕ) ≠ 7 →
      starMCCopyCtor 7 3 (3 : ℚ) (fun q => q + 1) =
        .ok ((fun q => q + 1) (3 : ℚ))) :=
  ⟨(starMC_copy_ctor_self_check 7 7 (3 : ℚ) (fun q => q + 1)).1,
    (starMC_copy_ctor_self_check 7 3 (3 : ℚ) (fun q => q + 1)).2⟩

/-! ## Cyclic distributions and the `[MC,MR] → [*,VR] → [*,MR] → [MC,MR]` chain

Models the distributed-matrix data layer.  A distributed matrix is the
family of per-process local buffers; a process of the `r × c` grid is a
pair `(i, j)` of its grid row and grid column.  The cyclic ownership rule
is the one stated by the spec's data model (the `operator=`
implementations themselves are not part of the sampled sources; the chain
`X1[*,VR] <- X1[MC,MR]`, `X1[*,MR] <- X1[*,VR]`, `X1[MC,MR] <- X1[*,MR]`
is the one executed by `TrsmLLN`, lines 89–98).

Modelled from the spec: the shift/alignment formulas (`Shift(rank, align,
modulus)` and the local-length rule `ceil((extent - shift)/numShards)`),
the row-major linearization of the `VR` vector distribution, and the fact
that each redistribution repopulates every target local entry by reading
the unique source process owning the corresponding global entry.  All
definitions are polymorphic in the entry type `T`, so they can move data
but can perform no scalar arithmetic on it. -/

/-- `utilities::Shift`: the first global index along an axis owned by
process coordinate `rank` under alignment `align` and `modulus` shards. -/
def shift (rank align modulus : ℕ) : ℕ :=
  (rank + modulus - align) % modulus

/-- The process coordinate owning global index `g` under alignment `align`
and `modulus` shards. -/
def owner (g align modulus : ℕ) : ℕ :=
  (g + align) % modulus

/-- The local offset at which the owner stores global index `g`. -/
def locIdx (g modulus : ℕ) : ℕ :=
  g / modulus

/-- Modelled from the spec: the row-major ("VR") linearization of the 2D
process grid. -/
def vrRank (c i j : ℕ) : ℕ :=
  j + c * i

theorem owner_lt (g align m : ℕ) (hm : 0 < m) : owner g align m < m :=
  Nat.mod_lt _ hm

theorem shift_lt (rank align m : ℕ) (hm : 0 < m) : shift rank align m < m :=
  Nat.mod_lt _ hm

/-- The shift of the owner of `g` is `g`'s residue class. -/
theorem shift_owner (g align m : ℕ) (hm : 0 < m) (ha : align < m) :
    shift (owner g align m) align m = g % m := by
  rw [shift, owner]
  have h1 : (g + align) % m + m - align = (g + align) % m + (m - align) := by
    omega
  rw [h1, Nat.mod_add_mod]
  have h2 : g + align + (m - align) = g + m := by omega
  rw [h2, Nat.add_mod_right]

/-- The ownership round trip: the owner of `g` reaches `g` back from its
own shift and `g`'s local offset. -/
theorem shift_owner_roundtrip (g align m : ℕ) (hm : 0 < m) (ha : align < m) :
    shift (owner g align m) align m + locIdx g m * m = g := by
  rw [shift_owner g align m hm ha, locIdx, Nat.mod_add_div' g m]

/-- Shifting is inverse to owning on coordinates below the modulus. -/
theorem owner_shift_self (i align m : ℕ) (hm : 0 < m) (hi : i < m)
    (ha : align < m) :
    owner (shift i align m) align m = i := by
  rw [owner, shift, Nat.mod_add_mod]
  have h2 : i + m - align + align = i + m := by omega
  rw [h2, Nat.add_mod_right, Nat.mod_eq_of_lt hi]

/-- The local offset of a shifted global index is the local index it was
built from. -/
theorem locIdx_shift_mul (s l m : ℕ) (hs : s < m) :
    locIdx (s + l * m) m = l := by
  rw [locIdx, Nat.add_mul_div_right _ _ (by omega : 0 < m),
    Nat.div_eq_of_lt hs, Nat.zero_add]

/-- The `vrRank` linearization round-trips through `(q / c, q % c)`. -/
theorem vrRank_roundtrip (c q : ℕ) : vrRank c (q / c) (q % c) = q := by
  rw [vrRank, Nat.mod_add_div]

/-- Ownership only depends on the residue class of the global index. -/
theorem owner_add_mul (s l a m : ℕ) : owner (s + l * m) a m = owner s a m := by
  rw [owner, owner]
  have h : s + l * m + a = s + a + l * m := by ring
  rw [h, Nat.add_mul_mod_self_right]

/-- `buf` is the family of local `[MC,MR]` buffers of the global `m × n`
matrix `G` on an `r × c` grid with column alignment `ca` and row alignment
`ra`: process `(i, j)` stores `G (shift i ca r + li*r) (shift j ra c + lj*c)`
at local position `(li, lj)`. -/
def repMCMR {T : Type} (r c ca ra m n : ℕ) (buf : ℕ → ℕ → ℕ → ℕ → T)
    (G : ℕ → ℕ → T) : Prop :=
  ∀ i j li lj, i < r → j < c →
    shift i ca r + li * r < m → shift j ra c + lj * c < n →
    buf i j li lj = G (shift i ca r + li * r) (shift j ra c + lj * c)

/-- `buf` is the family of local `[*,VR]` buffers of `G`: rows are
replicated; the columns are cyclic over the row-major linearized grid with
alignment `av`. -/
def repStarVR {T : Type} (r c av m n : ℕ) (buf : ℕ → ℕ → ℕ → ℕ → T)
    (G : ℕ → ℕ → T) : Prop :=
  ∀ i j gi lj, i < r → j < c → gi < m →
    shift (vrRank c i j) av (r * c) + lj * (r * c) < n →
    buf i j gi lj = G gi (shift (vrRank c i j) av (r * c) + lj * (r * c))

/-- `buf` is the family of local `[*,MR]` buffers of `G`: rows are
replicated; the columns are cyclic over the grid columns with alignment
`ar`. -/
def repStarMR {T : Type} (r c ar m n : ℕ) (buf : ℕ → ℕ → ℕ → ℕ → T)
    (G : ℕ → ℕ → T) : Prop :=
  ∀ i j gi lj, i < r → j < c → gi < m → shift j ar c + lj * c < n →
    buf i j gi lj = G gi (shift j ar c + lj * c)

/-- The conversion `X1[*,VR] <- X1[MC,MR]`: each target local entry is
fetched from the unique `[MC,MR]` owner of its global index (pure data
movement, polymorphic in the entry type). -/
def mcmrToStarVR {T : Type} (r c ca ra av : ℕ)
    (buf : ℕ → ℕ → ℕ → ℕ → T) : ℕ → ℕ → ℕ → ℕ → T :=
  fun i j gi lj =>
    buf (owner gi ca r)
      (owner (shift (vrRank c i j) av (r * c) + lj * (r * c)) ra c)
      (locIdx gi r)
      (locIdx (shift (vrRank c i j) av (r * c) + lj * (r * c)) c)

/-- The conversion `X1[*,MR] <- X1[*,VR]`: each target local entry is
fetched from the linearized process owning its global column under the
`VR` distribution. -/
def starVRToStarMR {T : Type} (r c av ar : ℕ)
    (buf : ℕ → ℕ → ℕ → ℕ → T) : ℕ → ℕ → ℕ → ℕ → T :=
  fun i j gi lj =>
    buf (owner (shift j ar c + lj * c) av (r * c) / c)
      (owner (shift j ar c + lj * c) av (r * c) % c)
      gi
      (locIdx (shift j ar c + lj * c) (r * c))

/-- The conversion `X1[MC,MR] <- X1[*,MR]`: each target local entry is
fetched from the process in the same grid row whose grid column owns the
global column under the `[*,MR]` distribution (rows are replicated there). -/
def starMRToMCMR {T : Type} (r c ar ca ra : ℕ)
    (buf : ℕ → ℕ → ℕ → ℕ → T) : ℕ → ℕ → ℕ → ℕ → T :=
  fun i j li lj =>
    buf i (owner (shift j ra c + lj * c) ar c)
      (shift i ca r + li * r)
      (locIdx (shift j ra c + lj * c) c)

theorem mcmrToStarVR_rep {T : Type} (r c ca ra av m n : ℕ)
    (hr : 0 < r) (hc : 0 < c) (hca : ca < r) (hra : ra < c)
    (buf : ℕ → ℕ → ℕ → ℕ → T) (G : ℕ → ℕ → T)
    (hrep : repMCMR r c ca ra m n buf G) :
    repStarVR r c av m n (mcmrToStarVR r c ca ra av buf) G := by
  intro i j gi lj hi hj hgi hgj
  rw [mcmrToStarVR]
  have hrow := shift_owner_roundtrip gi ca r hr hca
  have hcol := shift_owner_roundtrip
    (shift (vrRank c i j) av (r * c) + lj * (r * c)) ra c hc hra
  rw [hrep (owner gi ca r)
      (owner (shift (vrRank c i j) av (r * c) + lj * (r * c)) ra c)
      (locIdx gi r)
      (locIdx (shift (vrRank c i j) av (r * c) + lj * (r * c)) c)
      (owner_lt _ _ _ hr) (owner_lt _ _ _ hc)
      (by rw [hrow]; exact hgi) (by rw [hcol]; exact hgj)]
  rw [hrow, hcol]

theorem starVRToStarMR_rep {T : Type} (r c av ar m n : ℕ)
    (hr : 0 < r) (hc : 0 < c) (hav : av < r * c)
    (buf : ℕ → ℕ → ℕ → ℕ → T) (G : ℕ → ℕ → T)
    (hrep : repStarVR r c av m n buf G) :
    repStarMR r c ar m n (starVRToStarMR r c av ar buf) G := by
  intro i j gi lj hi hj hgi hgj
  rw [starVRToStarMR]
  have hp : 0 < r * c := Nat.mul_pos hr hc
  have hq : owner (shift j ar c + lj * c) av (r * c) < r * c :=
    owner_lt _ _ _ hp
  have hvr : vrRank c (owner (shift j ar c + lj * c) av (r * c) / c)
      (owner (shift j ar c + lj * c) av (r * c) % c) =
      owner (shift j ar c + lj * c) av (r * c) :=
    vrRank_roundtrip c _
  have hcol := shift_owner_roundtrip (shift j ar c + lj * c) av (r * c) hp hav
  rw [hrep (owner (shift j ar c + lj * c) av (r * c) / c)
      (owner (shift j ar c + lj * c) av (r * c) % c)
      gi (locIdx (shift j ar c + lj * c) (r * c))
      ((Nat.div_lt_iff_lt_mul hc).mpr hq)
      (Nat.mod_lt _ hc) hgi
      (by rw [hvr, hcol]; exact hgj)]
  rw [hvr, hcol]

theorem starMRToMCMR_rep {T : Type} (r c ar ca ra m n : ℕ)
    (hr : 0 < r) (hc : 0 < c) (har : ar < c)
    (buf : ℕ → ℕ → ℕ → ℕ → T) (G : ℕ → ℕ → T)
    (hrep : repStarMR r c ar m n buf G) :
    repMCMR r c ca ra m n (starMRToMCMR r c ar ca ra buf) G := by
  intro i j li lj hi hj hgi hgj
  rw [starMRToMCMR]
  have hcol := shift_owner_roundtrip (shift j ra c + lj * c) ar c hc har
  rw [hrep i (owner (shift j ra c + lj * c) ar c)
      (shift i ca r + li * r) (locIdx (shift j ra c + lj * c) c)
      hi (owner_lt _ _ _ hc) hgi (by rw [hcol]; exact hgj)]
  rw [hcol]

/-- The global matrix assembled from a family of `[MC,MR]` local buffers. -/
def assembleMCMR {T : Type} (r c ca ra : ℕ) (buf : ℕ → ℕ → ℕ → ℕ → T) :
    ℕ → ℕ → T :=
  fun gi gj => buf (owner gi ca r) (owner gj ra c) (locIdx gi r) (locIdx gj c)

/-- Every family of `[MC,MR]` local buffers represents the global matrix it
assembles. -/
theorem repMCMR_assemble {T : Type} (r c ca ra m n : ℕ)
    (hr : 0 < r) (hc : 0 < c) (hca : ca < r) (hra : ra < c)
    (buf : ℕ → ℕ → ℕ → ℕ → T) :
    repMCMR r c ca ra m n buf (assembleMCMR r c ca ra buf) := by
  intro i j li lj hi hj hgi hgj
  rw [assembleMCMR]
  rw [owner_add_mul (shift i ca r) li ca r, owner_add_mul (shift j ra c) lj ra c]
  rw [owner_shift_self i ca r hr hi hca, owner_shift_self j ra c hc hj hra]
  rw [locIdx_shift_mul (shift i ca r) li r (shift_lt i ca r hr),
    locIdx_shift_mul (shift j ra c) lj c (shift_lt j ra c hc)]

/-- C2: converting a distributed matrix along the chain
`[MC,MR] → [*,VR] → [*,MR] → [MC,MR]` (the redistributions executed by
`TrsmLLN`'s `X1` panel) under unchanged `[MC,MR]` alignment reproduces
every in-range local entry of every process bit-for-bit; the conversions
are polymorphic in the entry type, hence pure data movement with no scalar
arithmetic. -/
theorem redistribution_roundtrip_identity {T : Type} (r c ca ra av ar m n : ℕ)
    (hr : 0 < r) (hc : 0 < c) (hca : ca < r) (hra : ra < c)
    (hav : av < r * c) (har : ar < c) (buf : ℕ → ℕ → ℕ → ℕ → T) :
    ∀ i j li lj, i < r → j < c →
      shift i ca r + li * r < m → shift j ra c + lj * c < n →
      starMRToMCMR r c ar ca ra
        (starVRToStarMR r c av ar
          (mcmrToStarVR r c ca ra av buf)) i j li lj = buf i j li lj := by
  intro i j li lj hi hj hgi hgj
  have h0 := repMCMR_assemble r c ca ra m n hr hc hca hra buf
  have h1 := mcmrToStarVR_rep r c ca ra av m n hr hc hca hra buf _ h0
  have h2 := starVRToStarMR_rep r c av ar m n hr hc hav _ _ h1
  have h3 := starMRToMCMR_rep r c ar ca ra m n hr hc har _ _ h2
  rw [h3 i j li lj hi hj hgi hgj, h0 i j li lj hi hj hgi hgj]

/-- Witness for `redistribution_roundtrip_identity`: a 2×3 grid, zero
alignments, a 4×5 matrix of naturals encoding the buffer coordinates. -/
theorem redistribution_roundtrip_identity_witness :
    (0 < 2 ∧ 0 < 3 ∧ 0 < 2 ∧ 0 < 3 ∧ 1 < 2 * 3 ∧ 2 < 3) ∧
    (∀ i j li lj, i < 2 → j < 3 →
      shift i 0 2 + li * 2 < 4 → shift j 0 3 + lj * 3 < 5 →
      starMRToMCMR 2 3 2 0 0
        (starVRToStarMR 2 3 1 2
          (mcmrToStarVR 2 3 0 0 1
            (fun i j li lj => ((i, j), (li, lj)))) ) i j li lj =
        (fun i j li lj => ((i, j), (li, lj))) i j li lj) :=
  ⟨⟨by decide, by decide, by decide, by decide, by decide, by decide⟩,
    redistribution_roundtrip_identity 2 3 0 0 1 2 4 5 (by decide) (by decide)
      (by decide) (by decide) (by decide) (by decide) _⟩

/-! ## The distributed two-norm `blas::Nrm2`

Embeds `elemental::blas::Nrm2` (src/blas/level1/Nrm2/Nrm2.cpp) for an
`[MC,MR]`-distributed vector on an `r × c` grid.  For a column vector
(`x.Width() == 1`), the processes in the owning grid column
(`MRRank == x.RowAlignment()`) each take the sequential 2-norm of their
local entries, `AllGather` the `r` local norms over the column
communicator, and take the sequential 2-norm of the gathered norms; the
result is then `Broadcast` from the owning grid column along each process
row.  The row-vector branch (`x.Height() == 1`) is the mirror image.  The
sequential kernel (`wrappers::blas::Nrm2`) is the excluded local-kernel
collaborator, modelled exactly as the Euclidean norm
`sqrt (Σ entries²)`. -/

/-- The sequential 2-norm of the local entries held (for the vector axis
distributed over `shards` coordinates with alignment `align`) by axis
coordinate `p`: the global entries `g < len` with `owner g align shards
= p`. -/
noncomputable def nrm2Local (shards align len : ℕ) (x : ℕ → ℝ) (p : ℕ) : ℝ :=
  Real.sqrt (∑ g ∈ (Finset.range len).filter (fun g => owner g align shards = p),
    x g ^ 2)

/-- The value computed by a process of the owning axis group after
`AllGather`: the sequential 2-norm of the `shards` gathered local norms. -/
noncomputable def nrm2Gathered (shards align len : ℕ) (x : ℕ → ℝ) : ℝ :=
  Real.sqrt (∑ p ∈ Finset.range shards, nrm2Local shards align len x p ^ 2)

/-- `blas::Nrm2` on a width-1 vector of height `n`, column alignment `ca`:
the value returned by process `(i, j)` is the one `Broadcast` along its
grid row from the process in the owning grid column, which computed
`nrm2Gathered` over the grid's `r` rows. -/
noncomputable def Nrm2Col (r ca n : ℕ) (x : ℕ → ℝ) : ℕ → ℕ → ℝ :=
  fun _ _ => nrm2Gathered r ca n x

/-- `blas::Nrm2` on a height-1 vector of width `n`, row alignment `ra`:
the value returned by process `(i, j)` is the one `Broadcast` along its
grid column from the process in the owning grid row, which computed
`nrm2Gathered` over the grid's `c` columns. -/
noncomputable def Nrm2Row (c ra n : ℕ) (x : ℕ → ℝ) : ℕ → ℕ → ℝ :=
  fun _ _ => nrm2Gathered c ra n x

/-- The gathered norm-of-norms equals the Euclidean norm of the full
vector. -/
theorem nrm2Gathered_eq (shards align len : ℕ) (hs : 0 < shards)
    (x : ℕ → ℝ) :
    nrm2Gathered shards align len x =
      Real.sqrt (∑ g ∈ Finset.range len, x g ^ 2) := by
  rw [nrm2Gathered]
  congr 1
  have hsq : ∀ p ∈ Finset.range shards,
      nrm2Local shards align len x p ^ 2 =
        ∑ g ∈ (Finset.range len).filter (fun g => owner g align shards = p),
          x g ^ 2 := by
    intro p hp
    rw [nrm2Local]
    exact Real.sq_sqrt (Finset.sum_nonneg fun g hg => sq_nonneg (x g))
  rw [Finset.sum_congr rfl hsq]
  exact Finset.sum_fiberwise_of_maps_to
    (fun g hg => Finset.mem_range.mpr (owner_lt g align shards hs)) _

/-- C9: for every distributed vector (either branch of `blas::Nrm2`), the
value returned on every process of the grid is the same, and equals the
Euclidean norm of the global vector: the owning axis group's local norms
are all-gathered, their 2-norm is taken, and the broadcast hands the owner
value to every process. -/
theorem nrm2_same_on_all_processes (r c ca ra n : ℕ) (hr : 0 < r)
    (hc : 0 < c) (x : ℕ → ℝ) :
    (∀ i j, i < r → j < c →
      Nrm2Col r ca n x i j = Real.sqrt (∑ g ∈ Finset.range n, x g ^ 2)) ∧
    (∀ i j, i < r → j < c →
      Nrm2Row c ra n x i j = Real.sqrt (∑ g ∈ Finset.range n, x g ^ 2)) := by
  constructor
  · intro i j hi hj
    rw [Nrm2Col]
    exact nrm2Gathered_eq r ca n hr x
  · intro i j hi hj
    rw [Nrm2Row]
    exact nrm2Gathered_eq c ra n hc x

/-- Witness for `nrm2_same_on_all_processes`: a 2×2 grid, zero alignments,
a vector of height 3. -/
theorem nrm2_same_on_all_processes_witness :
    (0 < 2 ∧ 0 < 2) ∧
    ((∀ i j, i < 2 → j < 2 →
      Nrm2Col 2 0 3 (fun g => (g : ℝ)) i j =
        Real.sqrt (∑ g ∈ Finset.range 3, (g : ℝ) ^ 2)) ∧
    (∀ i j, i < 2 → j < 2 →
      Nrm2Row 2 0 3 (fun g => (g : ℝ)) i j =
        Real.sqrt (∑ g ∈ Finset.range 3, (g : ℝ) ^ 2))) :=
  ⟨⟨by decide, by decide⟩,
    nrm2_same_on_all_processes 2 2 0 0 3 (by decide) (by decide) _⟩

end Elemental
